import Mathlib

/-!
Verification of the techdag technology-knowledge-graph front-end.

The definitions below are shallow embeddings of the graph data model and the
pure computations of the repository: the `Node`/`Edge`/`GraphData` types from
src/types/index.ts, the edge derivation `processData` from
src/data/initialData.ts, the mutation handlers and `getRelatedNodes` from
src/App.tsx, the domain/time filtering from src/components/GraphView.tsx, the
collision-avoidance layout pass and wheel-zoom handlers of the GraphView
variants, and the form validation of UserContribution and NodeDetail.

JavaScript numbers are modelled as `Int` (years) and `Rat` (coordinates and
scales); JavaScript string ids are Lean `String`s; an optional field is an
`Option`.  A comparison `Math.sqrt(d2) < s` with `s ≥ 0` is embedded as the
equivalent squared comparison `d2 < s ^ 2`.
-/

namespace TechDag

/-- Closed domain enumeration, in the declaration order of the TS enum
`TechnologyDomain` (src/types/index.ts), which is the order produced by
`Object.values`. -/
inductive TechnologyDomain where
  | computing
  | energy
  | transportation
  | medicine
  | communication
  | materials
  | ai
  | space
  | mathematics
deriving DecidableEq, Repr

/-- Lifecycle status enumeration `NodeStatus` (src/types/index.ts). -/
inductive NodeStatus where
  | historical
  | current
  | emerging
  | theoretical
deriving DecidableEq, Repr

/-- The `Node` interface of src/types/index.ts.  The optional `links` array
is an `Option (List String)`. -/
structure Node where
  id : String
  label : String
  description : String
  year : Int
  domain : TechnologyDomain
  status : NodeStatus
  links : Option (List String)
deriving DecidableEq, Repr

/-- The `Edge` interface of src/types/index.ts: ordered endpoint pair with an
optional label. -/
structure Edge where
  source : String
  target : String
  label : Option String
deriving DecidableEq, Repr

/-- The `GraphData` interface of src/types/index.ts. -/
structure GraphData where
  nodes : List Node
  edges : List Edge
deriving DecidableEq, Repr

/-- The link entries of a node; `node.links` with `undefined` read as the
empty collection (the source guards every traversal with `if (node.links)`,
and iterating an empty array is a no-op, so `some []` and `none` behave
identically). -/
def linksOf (n : Node) : List String :=
  n.links.getD []

/-- The `forEach`/`push` loop body of `processData`
(src/data/initialData.ts lines 525-542): edges contributed by one node,
one edge per link entry, `source` the link entry and `target` the owning
node's id, no label. -/
def nodeEdges (n : Node) : List Edge :=
  (linksOf n).map fun t => { source := t, target := n.id, label := none }

/-- `processData` (src/data/initialData.ts lines 525-542): rebuilds the edge
collection wholesale from every node's `links` array, leaving the node
collection unchanged. -/
def processData (data : GraphData) : GraphData :=
  { data with edges := data.nodes.foldl (fun acc n => acc ++ nodeEdges n) [] }

/-- Ids present in a node list. -/
def nodeIds (nodes : List Node) : List String :=
  nodes.map Node.id

/-- The `filteredNodes` computation of GraphView
(src/components/GraphView.tsx lines 33-38): keep a node iff the domain
filter is empty or contains the node's domain, and the node's year lies in
the closed time range. -/
def filteredNodes (nodes : List Node) (filteredDomains : List TechnologyDomain)
    (timeRange : Int × Int) : List Node :=
  nodes.filter fun node =>
    decide ((filteredDomains = [] ∨ node.domain ∈ filteredDomains) ∧
      timeRange.1 ≤ node.year ∧ node.year ≤ timeRange.2)

/-- The `filteredEdges` computation of GraphView
(src/components/GraphView.tsx lines 41-47): keep an edge iff `find` locates
both endpoints among the visible nodes. -/
def filteredEdges (edges : List Edge) (visible : List Node) : List Edge :=
  edges.filter fun edge =>
    (visible.find? fun n => decide (n.id = edge.source)).isSome &&
    (visible.find? fun n => decide (n.id = edge.target)).isSome

-- Basic characterizations used by several claims.

theorem mem_filteredNodes {nodes : List Node} {doms : List TechnologyDomain}
    {tr : Int × Int} {n : Node} :
    n ∈ filteredNodes nodes doms tr ↔
      n ∈ nodes ∧ (doms = [] ∨ n.domain ∈ doms) ∧
        tr.1 ≤ n.year ∧ n.year ≤ tr.2 := by
  simp [filteredNodes, List.mem_filter]

theorem mem_filteredEdges {edges : List Edge} {visible : List Node} {e : Edge} :
    e ∈ filteredEdges edges visible ↔
      e ∈ edges ∧ (∃ n ∈ visible, n.id = e.source) ∧
        ∃ n ∈ visible, n.id = e.target := by
  simp [filteredEdges, List.mem_filter, List.find?_isSome]

theorem processData_edges (data : GraphData) :
    (processData data).edges = data.nodes.flatMap nodeEdges := by
  show data.nodes.foldl (fun acc n => acc ++ nodeEdges n) [] = _
  suffices h : ∀ (l : List Node) (acc : List Edge),
      l.foldl (fun acc n => acc ++ nodeEdges n) acc = acc ++ l.flatMap nodeEdges by
    simpa using h data.nodes []
  intro l
  induction l with
  | nil => simp
  | cons n rest ih => intro acc; simp [List.foldl_cons, ih, List.flatMap_cons]

/-- C10: node filtering keeps a node iff (the domain subset is empty OR the
node's domain belongs to it) AND the node's year lies in the closed range,
and the output is an order-preserving sublist of the input. -/
theorem filteredNodes_spec (nodes : List Node) (doms : List TechnologyDomain)
    (tr : Int × Int) :
    (∀ n : Node, n ∈ filteredNodes nodes doms tr ↔
        n ∈ nodes ∧ (doms = [] ∨ n.domain ∈ doms) ∧
          tr.1 ≤ n.year ∧ n.year ≤ tr.2) ∧
      (filteredNodes nodes doms tr).Sublist nodes := by
  refine ⟨fun n => mem_filteredNodes, ?_⟩
  exact List.filter_sublist nodes

/-- C7: an edge survives edge filtering iff it was present and both of its
endpoints are present in the corresponding filtered-node output; hence every
edge in the output has both endpoints among the visible nodes. -/
theorem filteredEdges_spec (edges : List Edge) (nodes : List Node)
    (doms : List TechnologyDomain) (tr : Int × Int) :
    ∀ e : Edge, e ∈ filteredEdges edges (filteredNodes nodes doms tr) ↔
      e ∈ edges ∧ (∃ n ∈ filteredNodes nodes doms tr, n.id = e.source) ∧
        ∃ n ∈ filteredNodes nodes doms tr, n.id = e.target := by
  intro e
  exact mem_filteredEdges

theorem processData_characterization (data : GraphData) :
    ((processData data).edges.length =
        (data.nodes.map fun n => (linksOf n).length).sum) ∧
      ∀ e ∈ (processData data).edges,
        ∃ n ∈ data.nodes, n.id = e.target ∧ e.source ∈ linksOf n ∧
          e.label = none := by
  constructor
  · rw [processData_edges]
    induction data.nodes with
    | nil => simp
    | cons a t ih => simp [List.flatMap_cons, ih, nodeEdges]
  · intro e he
    rw [processData_edges, List.mem_flatMap] at he
    obtain ⟨n, hn, hmem⟩ := he
    simp only [nodeEdges, List.mem_map] at hmem
    obtain ⟨t, ht, rfl⟩ := hmem
    exact ⟨n, hn, rfl, ht, rfl⟩

/-- C6: edge derivation produces exactly one edge per (link entry, owning
node) pair: the derived edge count is the total number of link entries
across all nodes, and every derived edge is oriented link → owner with no
label. -/
theorem processData_edge_per_link (data : GraphData) :
    ((processData data).edges.length =
        (data.nodes.map fun n => (linksOf n).length).sum) ∧
      ∀ e ∈ (processData data).edges,
        ∃ n ∈ data.nodes, n.id = e.target ∧ e.source ∈ linksOf n ∧
          e.label = none :=
  processData_characterization data

/-- Helper for `slugify`: the effect of `replace(/\s+/g, '-')` on a character
list, emitting a single hyphen per maximal whitespace run; `prevWs` records
whether the previous character was part of a whitespace run. -/
def slugAux (prevWs : Bool) : List Char → List Char
  | [] => []
  | c :: cs =>
      if c.isWhitespace then
        (if prevWs then [] else ['-']) ++ slugAux true cs
      else
        c :: slugAux false cs

/-- The id-slug computation of `handleAddNode` (src/App.tsx):
`label.toLowerCase().replace(/\s+/g, '-')`, with lowercasing applied per
character. -/
def slugify (s : String) : String :=
  ⟨slugAux false (s.data.map Char.toLower)⟩

/-- The payload of `handleAddNode`: `Omit<Node, 'id'>`. -/
structure NewNodeData where
  label : String
  description : String
  year : Int
  domain : TechnologyDomain
  status : NodeStatus
  links : Option (List String)
deriving DecidableEq, Repr

/-- The fresh id of `handleAddNode`: slugified label plus the time-based
suffix `Date.now().toString(36)`; the wall-clock suffix is passed in as a
parameter. -/
def newNodeId (payload : NewNodeData) (suffix : String) : String :=
  slugify payload.label ++ "-" ++ suffix

/-- The `Node` built by `handleAddNode` from its payload and fresh id. -/
def builtNode (payload : NewNodeData) (suffix : String) : Node :=
  { id := newNodeId payload suffix, label := payload.label,
    description := payload.description, year := payload.year,
    domain := payload.domain, status := payload.status,
    links := payload.links }

/-- `handleAddNode` of the first App variant (src/App.tsx lines 58-83):
appends the new node and pushes, per declared link, an edge
`{source: targetId, target: newId}` — oriented link → new node. -/
def handleAddNode (data : GraphData) (payload : NewNodeData)
    (suffix : String) : GraphData :=
  let newId := newNodeId payload suffix
  let newEdges := data.edges ++
    (match payload.links with
     | some ls => ls.map fun targetId => { source := targetId, target := newId, label := none }
     | none => [])
  { nodes := data.nodes ++ [builtNode payload suffix], edges := newEdges }

/-- `handleAddNode` of the auth-enabled App variant (src/App.tsx lines
546-572): appends the new node and pushes, per declared link, an edge
`{source: newId, target: targetId}` — oriented new node → link, the reverse
of the other variant and of `processData`. -/
def handleAddNodeAuth (data : GraphData) (payload : NewNodeData)
    (suffix : String) : GraphData :=
  let newId := newNodeId payload suffix
  let newEdges := data.edges ++
    (match payload.links with
     | some ls => ls.map fun targetId => { source := newId, target := targetId, label := none }
     | none => [])
  { nodes := data.nodes ++ [builtNode payload suffix], edges := newEdges }

/-- `handleDeleteNode` (src/App.tsx lines 523-543): removes the node with the
given id and every edge touching it. -/
def handleDeleteNode (data : GraphData) (nodeId : String) : GraphData :=
  { nodes := data.nodes.filter fun n => decide (n.id ≠ nodeId),
    edges := data.edges.filter fun e => decide (e.source ≠ nodeId ∧ e.target ≠ nodeId) }

/-- `getRelatedNodes` (src/App.tsx lines 46-55 and 462-471): ids reachable
from the selected node across one edge in either direction, then the nodes
carrying those ids. -/
def getRelatedNodes (selected : Node) (edges : List Edge) (nodes : List Node) :
    List Node :=
  let relatedNodeIds :=
    (edges.filter fun e => decide (e.source = selected.id ∨ e.target = selected.id)).map
      fun e => if e.source = selected.id then e.target else e.source
  nodes.filter fun n => decide (n.id ∈ relatedNodeIds)

theorem mem_getRelatedNodes {selected : Node} {edges : List Edge}
    {nodes : List Node} {b : Node} :
    b ∈ getRelatedNodes selected edges nodes ↔
      b ∈ nodes ∧ ∃ e ∈ edges,
        (e.source = selected.id ∨ e.target = selected.id) ∧
        (if e.source = selected.id then e.target else e.source) = b.id := by
  simp only [getRelatedNodes, List.mem_filter, decide_eq_true_iff, List.mem_map,
    List.mem_filter]
  constructor
  · rintro ⟨hb, e, ⟨he, hside⟩, heq⟩
    exact ⟨hb, e, he, by simpa using hside, heq⟩
  · rintro ⟨hb, e, he, hside, heq⟩
    exact ⟨hb, e, ⟨he, by simpa using hside⟩, heq⟩

/-- C9: related-node lookup is symmetric — for nodes A and B in the node
set, if B appears among A's related nodes then A appears among B's. -/
theorem getRelatedNodes_symm (edges : List Edge) (nodes : List Node)
    (a b : Node) (ha : a ∈ nodes)
    (hb : b ∈ getRelatedNodes a edges nodes) :
    a ∈ getRelatedNodes b edges nodes := by
  rw [mem_getRelatedNodes] at hb ⊢
  obtain ⟨hbn, e, he, hside, heq⟩ := hb
  refine ⟨ha, e, he, ?_⟩
  by_cases hsa : e.source = a.id
  · rw [if_pos hsa] at heq
    by_cases hsb : e.source = b.id
    · exact ⟨Or.inl hsb, by rw [if_pos hsb, heq, ← hsa, hsb]⟩
    · exact ⟨Or.inr heq, by rw [if_neg hsb, hsa]⟩
  · rw [if_neg hsa] at heq
    rcases hside with hsa' | hta
    · exact absurd hsa' hsa
    · exact ⟨Or.inl heq, by rw [if_pos heq, hta]⟩

/-- Closed instance of C9: a two-node, one-edge graph, discharged through
`getRelatedNodes_symm`. -/
theorem getRelatedNodes_symm_witness :
    (⟨"a", "A", "", 1950, .computing, .historical, none⟩ : Node) ∈
      getRelatedNodes ⟨"b", "B", "", 1960, .computing, .current, some ["a"]⟩
        [⟨"a", "b", none⟩]
        [⟨"a", "A", "", 1950, .computing, .historical, none⟩,
         ⟨"b", "B", "", 1960, .computing, .current, some ["a"]⟩] := by
  refine getRelatedNodes_symm [⟨"a", "b", none⟩]
    [⟨"a", "A", "", 1950, .computing, .historical, none⟩,
     ⟨"b", "B", "", 1960, .computing, .current, some ["a"]⟩]
    ⟨"a", "A", "", 1950, .computing, .historical, none⟩
    ⟨"b", "B", "", 1960, .computing, .current, some ["a"]⟩
    (by simp) (by decide)

/-- The edge-keeping test of `handleUpdateNode` (src/App.tsx lines 487-495):
an edge not touching the updated node is kept; an edge touching it is kept
iff the opposite endpoint still appears in the new `links`. -/
def keepEdge (u : Node) (e : Edge) : Bool :=
  if e.source ≠ u.id ∧ e.target ≠ u.id then true
  else decide ((if e.source = u.id then e.target else e.source) ∈ linksOf u)

/-- The membership test of `handleUpdateNode`'s `edgeExists` check
(src/App.tsx lines 499-502): an edge between the updated node and the linked
id, in either direction. -/
def edgeBetween (uid l : String) (es : List Edge) : Bool :=
  es.any fun e =>
    (decide (e.source = uid) && decide (e.target = l)) ||
    (decide (e.source = l) && decide (e.target = uid))

/-- The `newLinks.forEach` push loop of `handleUpdateNode` (src/App.tsx
lines 498-510): for each linked id, append `{source: u.id, target: linkId}`
unless an edge between the two already exists in either direction. -/
def addMissingEdges (u : Node) (ls : List String) (acc : List Edge) : List Edge :=
  ls.foldl
    (fun acc l => if edgeBetween u.id l acc then acc
                  else acc ++ [{ source := u.id, target := l, label := none }])
    acc

/-- `handleUpdateNode` (src/App.tsx lines 474-520): replaces the node by id
and reconciles edges — drops edges touching the node whose opposite endpoint
is no longer linked, then adds an edge per linked id not yet connected in
either direction. -/
def handleUpdateNode (data : GraphData) (u : Node) : GraphData :=
  { nodes := data.nodes.map fun n => if n.id = u.id then u else n,
    edges := addMissingEdges u (linksOf u) (data.edges.filter (keepEdge u)) }

theorem edgeBetween_append (uid l : String) (es es' : List Edge)
    (h : edgeBetween uid l es = true) :
    edgeBetween uid l (es ++ es') = true := by
  simp only [edgeBetween, List.any_append, Bool.or_eq_true]
  exact Or.inl h

theorem edgeBetween_addMissingEdges (u : Node) (uid l : String)
    (ls : List String) (acc : List Edge) (h : edgeBetween uid l acc = true) :
    edgeBetween uid l (addMissingEdges u ls acc) = true := by
  induction ls generalizing acc with
  | nil => exact h
  | cons x xs ih =>
      simp only [addMissingEdges, List.foldl_cons]
      by_cases hx : edgeBetween u.id x acc = true
      · rw [if_pos hx]; exact ih acc h
      · rw [if_neg hx]; exact ih _ (edgeBetween_append _ _ _ _ h)

theorem edgeBetween_self (u : Node) (l : String) (acc : List Edge) :
    edgeBetween u.id l (acc ++ [{ source := u.id, target := l, label := none }]) = true := by
  simp [edgeBetween]

theorem addMissingEdges_all (u : Node) (ls : List String) (acc : List Edge) :
    ∀ l ∈ ls, edgeBetween u.id l (addMissingEdges u ls acc) = true := by
  induction ls generalizing acc with
  | nil => intro l hl; cases hl
  | cons x xs ih =>
      intro l hl
      simp only [addMissingEdges, List.foldl_cons]
      rcases List.mem_cons.mp hl with rfl | hl'
      · by_cases hx : edgeBetween u.id l acc = true
        · rw [if_pos hx]
          exact edgeBetween_addMissingEdges u u.id l xs acc hx
        · rw [if_neg hx]
          exact edgeBetween_addMissingEdges u u.id l xs _ (edgeBetween_self u l acc)
      · by_cases hx : edgeBetween u.id x acc = true
        · rw [if_pos hx]; exact ih acc l hl'
        · rw [if_neg hx]; exact ih _ l hl'

theorem addMissingEdges_noop (u : Node) (ls : List String) (acc : List Edge)
    (h : ∀ l ∈ ls, edgeBetween u.id l acc = true) :
    addMissingEdges u ls acc = acc := by
  induction ls with
  | nil => rfl
  | cons x xs ih =>
      simp only [addMissingEdges, List.foldl_cons]
      rw [if_pos (h x (List.mem_cons_self x xs))]
      exact ih fun l hl => h l (List.mem_cons_of_mem x hl)

theorem mem_addMissingEdges (u : Node) (ls : List String) (acc : List Edge)
    (e : Edge) (he : e ∈ addMissingEdges u ls acc) :
    e ∈ acc ∨ ∃ l ∈ ls, e = { source := u.id, target := l, label := none } := by
  induction ls generalizing acc with
  | nil => exact Or.inl he
  | cons x xs ih =>
      simp only [addMissingEdges, List.foldl_cons] at he
      by_cases hx : edgeBetween u.id x acc = true
      · rw [if_pos hx] at he
        rcases ih acc he with h | ⟨l, hl, rfl⟩
        · exact Or.inl h
        · exact Or.inr ⟨l, List.mem_cons_of_mem x hl, rfl⟩
      · rw [if_neg hx] at he
        rcases ih _ he with h | ⟨l, hl, rfl⟩
        · rcases List.mem_append.mp h with h' | h'
          · exact Or.inl h'
          · rcases List.mem_singleton.mp h' with rfl
            exact Or.inr ⟨x, List.mem_cons_self x xs, rfl⟩
        · exact Or.inr ⟨l, List.mem_cons_of_mem x hl, rfl⟩

theorem keepEdge_of_mem_updated (u : Node) (E : List Edge) (e : Edge)
    (he : e ∈ addMissingEdges u (linksOf u) (E.filter (keepEdge u))) :
    keepEdge u e = true := by
  rcases mem_addMissingEdges u (linksOf u) (E.filter (keepEdge u)) e he with h | ⟨l, hl, rfl⟩
  · exact List.of_mem_filter h
  · simp [keepEdge, hl]

/-- C5: `updateNode` is idempotent — applying the same update twice yields
the same node and edge collections as applying it once, whenever the updated
id is present in the node set. -/
theorem handleUpdateNode_idempotent (data : GraphData) (u : Node)
    (_hpresent : ∃ n ∈ data.nodes, n.id = u.id) :
    handleUpdateNode (handleUpdateNode data u) u = handleUpdateNode data u := by
  unfold handleUpdateNode
  congr 1
  · rw [List.map_map]
    apply List.map_congr_left
    intro n _
    by_cases h : n.id = u.id <;> simp [h, Function.comp]
  · have hall : ∀ e ∈ addMissingEdges u (linksOf u) (data.edges.filter (keepEdge u)),
        keepEdge u e = true :=
      fun e he => keepEdge_of_mem_updated u data.edges e he
    rw [List.filter_eq_self.mpr hall]
    exact addMissingEdges_noop u (linksOf u) _
      (addMissingEdges_all u (linksOf u) (data.edges.filter (keepEdge u)))

/-- Closed instance of C5 at a concrete graph and update, discharged through
`handleUpdateNode_idempotent`. -/
theorem handleUpdateNode_idempotent_witness :
    handleUpdateNode
      (handleUpdateNode
        ⟨[⟨"a", "A", "", 1950, .computing, .historical, none⟩,
          ⟨"b", "B", "", 1960, .computing, .current, some ["a"]⟩],
         [⟨"a", "b", none⟩]⟩
        ⟨"b", "B2", "d", 1961, .energy, .current, some ["a"]⟩)
      ⟨"b", "B2", "d", 1961, .energy, .current, some ["a"]⟩ =
    handleUpdateNode
      ⟨[⟨"a", "A", "", 1950, .computing, .historical, none⟩,
        ⟨"b", "B", "", 1960, .computing, .current, some ["a"]⟩],
       [⟨"a", "b", none⟩]⟩
      ⟨"b", "B2", "d", 1961, .energy, .current, some ["a"]⟩ := by
  exact handleUpdateNode_idempotent _ _
    ⟨⟨"b", "B", "", 1960, .computing, .current, some ["a"]⟩, by simp, rfl⟩

/-- Every edge of the graph has both endpoints among the current nodes. -/
def edgesClosed (g : GraphData) : Prop :=
  ∀ e ∈ g.edges, (∃ n ∈ g.nodes, n.id = e.source) ∧ ∃ n ∈ g.nodes, n.id = e.target

/-- Every link entry of every node references an id present in the node
list (the well-formedness §3 of the data asks for but the code does not
enforce). -/
def linksClosed (nodes : List Node) : Prop :=
  ∀ n ∈ nodes, ∀ l ∈ linksOf n, ∃ m ∈ nodes, m.id = l

/-- Graph states reachable by edge derivation followed by the mutation
handlers, where every mutation only declares links to ids present in the
current node set (and updates target an existing node), as the UI produces
them by selecting links from the existing node list. -/
inductive Reachable : GraphData → Prop where
  | init (nodes : List Node) (edges₀ : List Edge) (h : linksClosed nodes) :
      Reachable (processData ⟨nodes, edges₀⟩)
  | add (g : GraphData) (payload : NewNodeData) (suffix : String)
      (hg : Reachable g)
      (hl : ∀ l ∈ payload.links.getD [], ∃ n ∈ g.nodes, n.id = l) :
      Reachable (handleAddNode g payload suffix)
  | addAuth (g : GraphData) (payload : NewNodeData) (suffix : String)
      (hg : Reachable g)
      (hl : ∀ l ∈ payload.links.getD [], ∃ n ∈ g.nodes, n.id = l) :
      Reachable (handleAddNodeAuth g payload suffix)
  | update (g : GraphData) (u : Node) (hg : Reachable g)
      (hid : ∃ n ∈ g.nodes, n.id = u.id)
      (hl : ∀ l ∈ linksOf u, ∃ n ∈ g.nodes, n.id = l) :
      Reachable (handleUpdateNode g u)
  | delete (g : GraphData) (nodeId : String) (hg : Reachable g) :
      Reachable (handleDeleteNode g nodeId)

theorem hasId_map_update (u : Node) (nodes : List Node) (s : String)
    (h : ∃ n ∈ nodes, n.id = s) :
    ∃ n ∈ nodes.map fun n => if n.id = u.id then u else n, n.id = s := by
  obtain ⟨n, hn, hid⟩ := h
  by_cases hu : n.id = u.id
  · exact ⟨u, List.mem_map.mpr ⟨n, hn, by rw [if_pos hu]⟩, by rw [← hu, hid]⟩
  · exact ⟨n, List.mem_map.mpr ⟨n, hn, by rw [if_neg hu]⟩, hid⟩

/-- C2, amended: every state reachable by edge derivation and well-formed
mutations (each declared link referencing an existing node id) has every
edge's endpoints present in the node set. -/
theorem reachable_edges_closed (g : GraphData) (hg : Reachable g) :
    edgesClosed g := by
  induction hg with
  | init nodes edges₀ h =>
      intro e he
      obtain ⟨n, hn, htgt, hsrc, -⟩ := (processData_characterization ⟨nodes, edges₀⟩).2 e he
      exact ⟨h n hn e.source hsrc, ⟨n, hn, htgt⟩⟩
  | add g payload suffix hg hl ih =>
      intro e he
      rcases List.mem_append.mp he with hold | hnew
      · obtain ⟨⟨n, hn, h1⟩, ⟨m, hm, h2⟩⟩ := ih e hold
        exact ⟨⟨n, List.mem_append_left _ hn, h1⟩, ⟨m, List.mem_append_left _ hm, h2⟩⟩
      · match hls : payload.links with
        | none => rw [hls] at hnew; cases hnew
        | some ls =>
            rw [hls] at hnew
            obtain ⟨t, ht, rfl⟩ := List.mem_map.mp hnew
            obtain ⟨n, hn, hid⟩ := hl t (by rw [hls]; exact ht)
            exact ⟨⟨n, List.mem_append_left _ hn, hid⟩,
              ⟨builtNode payload suffix, List.mem_append_right _ (List.mem_singleton.mpr rfl), rfl⟩⟩
  | addAuth g payload suffix hg hl ih =>
      intro e he
      rcases List.mem_append.mp he with hold | hnew
      · obtain ⟨⟨n, hn, h1⟩, ⟨m, hm, h2⟩⟩ := ih e hold
        exact ⟨⟨n, List.mem_append_left _ hn, h1⟩, ⟨m, List.mem_append_left _ hm, h2⟩⟩
      · match hls : payload.links with
        | none => rw [hls] at hnew; cases hnew
        | some ls =>
            rw [hls] at hnew
            obtain ⟨t, ht, rfl⟩ := List.mem_map.mp hnew
            obtain ⟨n, hn, hid⟩ := hl t (by rw [hls]; exact ht)
            exact ⟨⟨builtNode payload suffix, List.mem_append_right _ (List.mem_singleton.mpr rfl), rfl⟩,
              ⟨n, List.mem_append_left _ hn, hid⟩⟩
  | update g u hg hid hl ih =>
      intro e he
      rcases mem_addMissingEdges u (linksOf u) (g.edges.filter (keepEdge u)) e he with
        hkept | ⟨l, hl', rfl⟩
      · obtain ⟨h1, h2⟩ := ih e (List.mem_of_mem_filter hkept)
        exact ⟨hasId_map_update u g.nodes e.source h1, hasId_map_update u g.nodes e.target h2⟩
      · exact ⟨hasId_map_update u g.nodes u.id hid, hasId_map_update u g.nodes l (hl l hl')⟩
  | delete g nodeId hg ih =>
      intro e he
      have hmem := List.mem_of_mem_filter he
      have hprop : e.source ≠ nodeId ∧ e.target ≠ nodeId := by
        simpa using List.of_mem_filter he
      obtain ⟨⟨n, hn, h1⟩, ⟨m, hm, h2⟩⟩ := ih e hmem
      refine ⟨⟨n, List.mem_filter.mpr ⟨hn, decide_eq_true ?_⟩, h1⟩,
        ⟨m, List.mem_filter.mpr ⟨hm, decide_eq_true ?_⟩, h2⟩⟩
      · rw [h1]; exact hprop.1
      · rw [h2]; exact hprop.2

/-- Closed instance of the amended C2, discharged through
`reachable_edges_closed` at a concrete reachable state. -/
theorem reachable_edges_closed_witness :
    edgesClosed (processData
      ⟨[⟨"a", "A", "", 1950, .computing, .historical, none⟩,
        ⟨"b", "B", "", 1960, .computing, .current, some ["a"]⟩], []⟩) := by
  exact reachable_edges_closed _ (Reachable.init _ [] (by unfold linksClosed; decide))

/-- Counterexample to C2 as stated: deriving edges from a node whose `links`
mention an id matching no node yields an edge whose source id is absent from
the node set. -/
theorem processData_dangling_edge :
    (⟨"ghost", "a", none⟩ : Edge) ∈
      (processData ⟨[⟨"a", "A", "", 1950, .computing, .historical, some ["ghost"]⟩], []⟩).edges ∧
    ∀ n ∈ (processData
        ⟨[⟨"a", "A", "", 1950, .computing, .historical, some ["ghost"]⟩], []⟩).nodes,
      n.id ≠ "ghost" := by
  decide

/-- C1: evaluating the auth-enabled `handleAddNode` at the spec's example
scenario (new node labelled X with links ["A"] against an existing node a):
the synthesized edge is oriented newNode → link, while the other App variant
of the same function — and the derivation `processData` — orient link →
newNode as the claim states. -/
theorem handleAddNodeAuth_reversed_orientation :
    (handleAddNodeAuth
        (processData ⟨[⟨"a", "A", "", 1950, .computing, .historical, none⟩], []⟩)
        ⟨"X", "", 2000, .computing, .current, some ["a"]⟩ "s").edges =
      [⟨"x-s", "a", none⟩] ∧
    (handleAddNode
        (processData ⟨[⟨"a", "A", "", 1950, .computing, .historical, none⟩], []⟩)
        ⟨"X", "", 2000, .computing, .current, some ["a"]⟩ "s").edges =
      [⟨"a", "x-s", none⟩] := by
  decide

/-- JavaScript `String.prototype.trim`: strip leading and trailing
whitespace. -/
def jsTrim (s : String) : String :=
  ⟨((s.data.dropWhile Char.isWhitespace).reverse.dropWhile Char.isWhitespace).reverse⟩

/-- The form state of UserContribution (src: UserContribution component):
`year` is the result of `parseInt`, with `none` standing for `NaN`. -/
structure ContribFormData where
  label : String
  description : String
  year : Option Int
  domain : TechnologyDomain
  status : NodeStatus
deriving DecidableEq, Repr

/-- UserContribution's `validateForm` (lines 376-393 of the component file):
an error is recorded when the trimmed label is empty, when the trimmed
description is empty, or when the year is `NaN`, below 1800 or above 2100;
the form is valid iff no error was recorded. -/
def contribValidateForm (f : ContribFormData) : Bool :=
  !(decide (jsTrim f.label = "") || decide (jsTrim f.description = "") ||
    (match f.year with
     | none => true
     | some y => decide (y < 1800) || decide (2100 < y)))

/-- UserContribution's `handleSubmit` (lines 395-417): invokes `onAddNode`
with the form data plus the selected links only when `validateForm` passes;
`none` means the callback was not invoked and no mutation occurs. -/
def contribHandleSubmit (f : ContribFormData) (selectedLinks : List String) :
    Option NewNodeData :=
  if contribValidateForm f then
    match f.year with
    | some y => some ⟨f.label, f.description, y, f.domain, f.status, some selectedLinks⟩
    | none => none
  else none

/-- NodeDetail's `validateForm` (lines 722-737 of the component file): an
error is recorded only for an empty trimmed label or an empty trimmed
description — the year is not checked. -/
def detailValidateForm (editData : Node) : Bool :=
  !(decide (jsTrim editData.label = "") || decide (jsTrim editData.description = ""))

/-- NodeDetail's `handleSave` (lines 740-752): invokes `onUpdateNode` with
the edited node (links replaced by the selected links) only when
`validateForm` passes; `none` means no callback and no mutation. -/
def detailHandleSave (editData : Node) (selectedLinks : List String) :
    Option Node :=
  if detailValidateForm editData then
    some { editData with links := some selectedLinks }
  else none

/-- C8, amended: creating a node is blocked by a blank label, blank
description, or a year that is NaN or outside [1800, 2100]; editing is
blocked by a blank label or blank description (the year is not validated on
edit). -/
theorem validation_blocks_submission :
    (∀ (f : ContribFormData) (links : List String),
      (jsTrim f.label = "" ∨ jsTrim f.description = "" ∨ f.year = none ∨
        ∃ y, f.year = some y ∧ (y < 1800 ∨ 2100 < y)) →
      contribHandleSubmit f links = none) ∧
    ∀ (e : Node) (links : List String),
      (jsTrim e.label = "" ∨ jsTrim e.description = "") →
      detailHandleSave e links = none := by
  constructor
  · intro f links h
    have hv : contribValidateForm f = false := by
      rcases h with h | h | h | ⟨y, hy, hy'⟩
      · simp [contribValidateForm, h]
      · simp [contribValidateForm, h]
      · simp [contribValidateForm, h]
      · rcases hy' with h | h <;> simp [contribValidateForm, hy, h]
    simp [contribHandleSubmit, hv]
  · intro e links h
    have hv : detailValidateForm e = false := by
      rcases h with h | h <;> simp [detailValidateForm, h]
    simp [detailHandleSave, hv]

/-- Closed instance of the amended C8, discharged through
`validation_blocks_submission`: a blank label blocks creation, and a blank
description blocks editing. -/
theorem validation_blocks_submission_witness :
    contribHandleSubmit ⟨"", "desc", some 1999, .computing, .current⟩ [] = none ∧
    detailHandleSave ⟨"n1", "Label", "", 1999, .computing, .current, none⟩ [] = none := by
  exact ⟨validation_blocks_submission.1 _ [] (Or.inl rfl),
    validation_blocks_submission.2 _ [] (Or.inr rfl)⟩

/-- Counterexample to C8 as stated: editing an existing node with a year
outside [1800, 2100] is not blocked — NodeDetail's save proceeds and invokes
the update callback. -/
theorem nodeDetail_year_not_validated :
    (2100 : Int) < 3000 ∧
    detailHandleSave ⟨"n1", "A", "B", 3000, .computing, .current, none⟩ [] =
      some ⟨"n1", "A", "B", 3000, .computing, .current, some []⟩ := by
  decide

/-- The viewport transform `{translateX, translateY, scale}` of the
GraphView variants. -/
structure ViewTransform where
  x : ℚ
  y : ℚ
  scale : ℚ
deriving DecidableEq, Repr

/-- A point in layout or screen space. -/
structure Pt where
  x : ℚ
  y : ℚ
deriving DecidableEq, Repr

/-- The affine map from layout space to screen space applied at render time:
`position * scale + translate` (the scaled-translate rendering of the
GraphView variants). -/
def projectPoint (t : ViewTransform) (p : Pt) : Pt :=
  ⟨p.x * t.scale + t.x, p.y * t.scale + t.y⟩

/-- The layout point that projects to a given screen point under a
transform (inverse of `projectPoint`; used to state the anchor claim). -/
def unprojectPoint (t : ViewTransform) (q : Pt) : Pt :=
  ⟨(q.x - t.x) / t.scale, (q.y - t.y) / t.scale⟩

/-- `handleWheel` of the oversized-virtual-canvas GraphView variant
(lines 80-96 of that component): scales by 1.2 or 0.8, clamps to
[0.2, 2], and recomputes the translate from the pointer offset so the
cursor keeps its layout point. -/
def handleWheelVirtual (t : ViewTransform) (clientX clientY deltaY : ℚ) :
    ViewTransform :=
  let scaleAmount : ℚ := if deltaY < 0 then 1.2 else 0.8
  let pointerX := clientX - t.x
  let pointerY := clientY - t.y
  let newScale := max 0.2 (min 2 (t.scale * scaleAmount))
  let scaleRatio := newScale / t.scale
  ⟨clientX - pointerX * scaleRatio, clientY - pointerY * scaleRatio, newScale⟩

/-- `handleWheel` of the collision-layout GraphView variant (lines 129-136
of that component, and likewise src/components/GraphView.tsx lines
458-467): scales by 1.1 or 0.9 clamped to [0.5, 3] and leaves the
translate unchanged. -/
def handleWheelSimple (t : ViewTransform) (deltaY : ℚ) : ViewTransform :=
  let scaleAmount : ℚ := if deltaY < 0 then 1.1 else 0.9
  { t with scale := max 0.5 (min 3 (t.scale * scaleAmount)) }

/-- C4, amended: for the virtual-canvas variant's wheel zoom, the layout
point under the cursor before the zoom projects to the very same screen
point after the zoom (exactly, over the rationals), for any transform with
nonzero scale. -/
theorem anchor_algebra (s m px tx : ℚ) (hs : s ≠ 0) :
    (px - tx) / s * m + (px - (px - tx) * (m / s)) = px := by
  field_simp

theorem zoom_virtual_anchor_preserving (t : ViewTransform) (P : Pt) (d : ℚ)
    (hs : t.scale ≠ 0) :
    projectPoint (handleWheelVirtual t P.x P.y d) (unprojectPoint t P) = P := by
  obtain ⟨tx, ty, s⟩ := t
  obtain ⟨px, py⟩ := P
  simp only [handleWheelVirtual, projectPoint, unprojectPoint, Pt.mk.injEq]
  exact ⟨anchor_algebra s _ px tx hs, anchor_algebra s _ py ty hs⟩

/-- Closed instance of the amended C4 at a concrete transform and cursor,
discharged through `zoom_virtual_anchor_preserving`. -/
theorem zoom_virtual_anchor_preserving_witness :
    projectPoint (handleWheelVirtual ⟨3, 4, 2⟩ 10 20 (-1))
      (unprojectPoint ⟨3, 4, 2⟩ ⟨10, 20⟩) = ⟨10, 20⟩ := by
  exact zoom_virtual_anchor_preserving ⟨3, 4, 2⟩ ⟨10, 20⟩ (-1) (by norm_num)

/-- Counterexample to C4 as stated: the collision-layout variant's wheel
zoom leaves the translate unchanged, so the layout point that was under the
cursor moves — at transform (0,0,1) and cursor (100,100), the anchored
layout point reprojects to (110,110). -/
theorem zoom_simple_not_anchor_preserving :
    projectPoint (⟨0, 0, 1⟩ : ViewTransform)
        (unprojectPoint ⟨0, 0, 1⟩ ⟨100, 100⟩) = ⟨100, 100⟩ ∧
      projectPoint (handleWheelSimple ⟨0, 0, 1⟩ (-1))
        (unprojectPoint ⟨0, 0, 1⟩ ⟨100, 100⟩) ≠ ⟨100, 100⟩ := by
  constructor <;> norm_num [projectPoint, unprojectPoint, handleWheelSimple]

/-- Ordinal of a domain in the fixed enumeration
(`Object.values(TechnologyDomain).indexOf`). -/
def domainIndex : TechnologyDomain → ℕ
  | .computing => 0
  | .energy => 1
  | .transportation => 2
  | .medicine => 3
  | .communication => 4
  | .materials => 5
  | .ai => 6
  | .space => 7
  | .mathematics => 8

/-- Number of domains (`Object.keys(TechnologyDomain).length`). -/
def domainCount : ℕ := 9

/-- The `nodeConnectionCounts` entry for an id: each edge increments the
count of its source id and of its target id. -/
def connectionCount (edges : List Edge) (id : String) : ℕ :=
  (edges.filter fun e => decide (e.source = id)).length +
  (edges.filter fun e => decide (e.target = id)).length

/-- The effective collision radius of a node (collision-layout GraphView,
line 105): base radius 40 plus `min(15, connectionCount * 5)`. -/
def effectiveRadius (edges : List Edge) (id : String) : ℚ :=
  40 + min 15 ((connectionCount edges id : ℚ) * 5)

/-- Step 1 of the layout pass (lines 89-98): x linear in the year over the
time range, y from the domain ordinal, with the fixed 100-pixel offsets and
width/height margins of the source. -/
def initialPosition (w h t0 t1 : ℚ) (n : Node) : Pt :=
  ⟨100 + ((n.year : ℚ) - t0) / (t1 - t0) * (w - 300),
   100 + ((domainIndex n.domain : ℚ) / (domainCount : ℚ)) * (h - 300)⟩

/-- The overlap test of the collision loop (lines 108-115): the candidate at
(x, y) with radius r overlaps some previously placed node when the squared
distance between centers is below the squared sum of the two effective radii
plus the vertical padding 10 (the source compares `Math.sqrt` of the squared
distance against the nonnegative sum; the squared comparison is
equivalent). -/
def overlaps (placed : List (String × Pt)) (edges : List Edge) (x y r : ℚ) : Bool :=
  placed.any fun p =>
    decide ((x - p.2.x) ^ 2 + (y - p.2.y) ^ 2 < (r + effectiveRadius edges p.1 + 10) ^ 2)

/-- The `while` collision loop (lines 108-119): as long as the candidate
overlaps a placed node and fewer than 20 tries were used, push the candidate
straight down by (radius + padding); the remaining-tries budget is the fuel
argument, 20 at entry. -/
def settleY (placed : List (String × Pt)) (edges : List Edge) (r x : ℚ) :
    ℚ → ℕ → ℚ
  | y, 0 => y
  | y, fuel + 1 =>
      if overlaps placed edges x y r then settleY placed edges r x (y + r + 10) fuel
      else y

/-- Step 2 of the layout pass (lines 101-123): process nodes in input order;
each node starts at its initial position, is settled downward against the
previously placed nodes, and is then appended to the placed list. -/
def placeNodes (edges : List Edge) (w h t0 t1 : ℚ) :
    List Node → List (String × Pt) → List (String × Pt)
  | [], placed => placed
  | n :: rest, placed =>
      let p0 := initialPosition w h t0 t1 n
      let r := effectiveRadius edges n.id
      let y := settleY placed edges r p0.x p0.y 20
      placeNodes edges w h t0 t1 rest (placed ++ [(n.id, ⟨p0.x, y⟩)])

/-- The full two-pass layout of the collision-layout GraphView variant
(lines 78-126): final position per node id, in placement order. -/
def layoutPositions (edges : List Edge) (w h t0 t1 : ℚ) (nodes : List Node) :
    List (String × Pt) :=
  placeNodes edges w h t0 t1 nodes []

theorem settleY_step (placed : List (String × Pt)) (edges : List Edge)
    (r x y : ℚ) (n : ℕ) :
    settleY placed edges r x y (n + 1) =
      if overlaps placed edges x y r then settleY placed edges r x (y + r + 10) n
      else y := rfl

theorem settleY_nil (edges : List Edge) (r x y : ℚ) (fuel : ℕ) :
    settleY [] edges r x y fuel = y := by
  cases fuel with
  | zero => rfl
  | succ n => simp [settleY_step, overlaps]

theorem effectiveRadius_ge (edges : List Edge) (id : String) :
    40 ≤ effectiveRadius edges id := by
  have : (0:ℚ) ≤ min 15 ((connectionCount edges id : ℚ) * 5) :=
    le_min (by norm_num) (by positivity)
  unfold effectiveRadius
  linarith

theorem effectiveRadius_le (edges : List Edge) (id : String) :
    effectiveRadius edges id ≤ 55 := by
  have : min 15 ((connectionCount edges id : ℚ) * 5) ≤ 15 := min_le_left _ _
  unfold effectiveRadius
  linarith

theorem settle_single_sep (edges : List Edge) (i1 : String) (px py r2 : ℚ)
    (h2 : 40 ≤ r2) :
    (settleY [(i1, ⟨px, py⟩)] edges r2 px py 20 - py) ^ 2 ≥
      (r2 + effectiveRadius edges i1 + 10) ^ 2 := by
  have h1 : 40 ≤ effectiveRadius edges i1 := effectiveRadius_ge edges i1
  have h1' : effectiveRadius edges i1 ≤ 55 := effectiveRadius_le edges i1
  set r1 := effectiveRadius edges i1 with hr1
  have hov0 : overlaps [(i1, ⟨px, py⟩)] edges px py r2 = true := by
    simp only [overlaps, List.any_cons, List.any_nil, Bool.or_false,
      decide_eq_true_iff]
    nlinarith
  have hov1 : overlaps [(i1, ⟨px, py⟩)] edges px (py + r2 + 10) r2 = true := by
    simp only [overlaps, List.any_cons, List.any_nil, Bool.or_false,
      decide_eq_true_iff]
    nlinarith
  have hov3 : overlaps [(i1, ⟨px, py⟩)] edges px (py + r2 + 10 + r2 + 10 + r2 + 10) r2
      = false := by
    simp only [overlaps, List.any_cons, List.any_nil, Bool.or_false,
      decide_eq_false_iff_not, not_lt]
    nlinarith
  rw [show (20:ℕ) = 19 + 1 from rfl, settleY_step, if_pos hov0,
    show (19:ℕ) = 18 + 1 from rfl, settleY_step, if_pos hov1,
    show (18:ℕ) = 17 + 1 from rfl, settleY_step]
  by_cases hov2 : overlaps [(i1, ⟨px, py⟩)] edges px (py + r2 + 10 + r2 + 10) r2 = true
  · rw [if_pos hov2, show (17:ℕ) = 16 + 1 from rfl, settleY_step, hov3]
    simp only [Bool.false_eq_true, if_false]
    nlinarith
  · rw [if_neg hov2]
    simp only [overlaps, List.any_cons, List.any_nil, Bool.or_false,
      decide_eq_true_iff, not_lt] at hov2
    nlinarith

/-- C3: placing two visible nodes with the same year and the same domain
(hence the same initial position) and distinct ids, the collision pass
yields positions whose squared distance is at least the square of the sum of
the two effective radii plus the padding 10 — equivalently, the Euclidean
distance is at least the sum of effective radii plus the padding. -/
theorem layout_two_nodes_separation (edges : List Edge) (w h t0 t1 : ℚ)
    (n1 n2 : Node) (hyear : n1.year = n2.year) (hdom : n1.domain = n2.domain)
    (_hne : n1.id ≠ n2.id) :
    ∃ p1 p2 : Pt,
      layoutPositions edges w h t0 t1 [n1, n2] = [(n1.id, p1), (n2.id, p2)] ∧
      (p1.x - p2.x) ^ 2 + (p1.y - p2.y) ^ 2 ≥
        (effectiveRadius edges n1.id + effectiveRadius edges n2.id + 10) ^ 2 := by
  have hinit : initialPosition w h t0 t1 n2 = initialPosition w h t0 t1 n1 := by
    simp [initialPosition, hyear, hdom]
  set p := initialPosition w h t0 t1 n1 with hp
  set r2 := effectiveRadius edges n2.id with hr2
  refine ⟨⟨p.x, p.y⟩, ⟨p.x, settleY [(n1.id, ⟨p.x, p.y⟩)] edges r2 p.x p.y 20⟩,
    ?_, ?_⟩
  · simp only [layoutPositions, placeNodes, settleY_nil, List.nil_append, hinit]
    simp [← hp, ← hr2]
  · have hsep := settle_single_sep edges n1.id p.x p.y r2
      (effectiveRadius_ge edges n2.id)
    nlinarith [hsep]

/-- Closed instance of C3 at two concrete same-year same-domain nodes,
discharged through `layout_two_nodes_separation`. -/
theorem layout_two_nodes_separation_witness :
    ∃ p1 p2 : Pt,
      layoutPositions [] 800 600 1940 2050
          [⟨"a", "A", "", 1950, .computing, .historical, none⟩,
           ⟨"b", "B", "", 1950, .computing, .current, none⟩] =
        [("a", p1), ("b", p2)] ∧
      (p1.x - p2.x) ^ 2 + (p1.y - p2.y) ^ 2 ≥
        (effectiveRadius [] "a" + effectiveRadius [] "b" + 10) ^ 2 := by
  exact layout_two_nodes_separation [] 800 600 1940 2050
    ⟨"a", "A", "", 1950, .computing, .historical, none⟩
    ⟨"b", "B", "", 1950, .computing, .current, none⟩ rfl rfl (by decide)

/-- Closed instance of C6 at a concrete graph, discharged through
`processData_edge_per_link`. -/
theorem processData_edge_per_link_witness :
    ((processData ⟨[⟨"a", "A", "", 1950, .computing, .historical, none⟩,
        ⟨"b", "B", "", 1960, .computing, .current, some ["a"]⟩], []⟩).edges.length =
      ([⟨"a", "A", "", 1950, .computing, .historical, none⟩,
        ⟨"b", "B", "", 1960, .computing, .current, some ["a"]⟩].map
          fun n => (linksOf n).length).sum) := by
  exact (processData_edge_per_link _).1

end TechDag
